import Mathlib

/-!
Shallow embedding of `duplicates.py`, a duplicate-file finder, together with
proofs of the specified properties of its components:

* `FileMetadata`, `Item` — the data model (`FileMetadata`, `Item` dataclasses);
* `pySorted` — Python's `sorted(files_list, key=lambda item: item.md5)`,
  a stable ascending sort by the `md5` key;
* `scanLoop` / `check_for_duplicates` — `Data.check_for_duplicates`:
  the scan over the sorted list that counts duplicates, accumulates wasted
  space, reports (previous, current) path pairs and optionally deletes
  duplicate files (deletion may raise, which aborts the scan);
* `readBlocks` / `calculate_md5` — `FileFoundHandler._calculate_md5`:
  streaming a file's bytes through an incremental digest in 4096-byte blocks;
* `collectLoop` / `get_files_list` — `FileFoundHandler.get_files_list`:
  the parallel fingerprinting stage with its progress callback;
* `processDir` / `processEntries` — `FileBrowser._process_files`:
  the recursive walk with `PermissionError` recovery.
-/

namespace Duplicates

/-- The `FileMetadata` dataclass: size and timestamps read by `os.path.getsize`,
`getmtime`, `getctime`. -/
structure FileMetadata where
  size : Nat
  mtime : Int
  ctime : Int
deriving Repr, DecidableEq

/-- The `Item` dataclass: path, md5 hex digest and metadata of one file. -/
structure Item where
  path : String
  md5 : String
  metadata : FileMetadata
deriving Repr, DecidableEq

/-- The sort key relation of `sorted(files_list, key=lambda item: item.md5)`:
compare records by their `md5` field. -/
def md5le (a b : Item) : Prop := a.md5 ≤ b.md5

instance : DecidableRel md5le := fun a b =>
  decidable_of_iff (a.md5.toList ≤ b.md5.toList) String.le_iff_toList_le.symm

instance : IsTotal Item md5le := ⟨fun a b => le_total a.md5 b.md5⟩

instance : IsTrans Item md5le := ⟨fun _ _ _ h1 h2 => le_trans h1 h2⟩

/-- Python's `sorted(files_list, key=lambda item: item.md5)`: a stable sort,
ascending by the `md5` key. -/
def pySorted (l : List Item) : List Item := l.insertionSort md5le

/-- State threaded through the `check_for_duplicates` loop: the duplicate
counter, the wasted-space accumulator, the list of printed
`(previous path, duplicate path)` pairs, and the set of paths currently
existing on storage. -/
structure ScanState where
  count : Nat
  wasted : Nat
  pairs : List (String × String)
  fs : Finset String
deriving DecidableEq

/-- The loop body of `Data.check_for_duplicates` over the sorted list.
`prev` is `data_sorted[i - 1]` (`none` at `i = 0`).  When the current record's
md5 equals the previous one's, the counter, wasted space and printed pair are
recorded; with `delete` set, `os.remove` is called on the duplicate's path.
`failS` is the set of paths whose removal raises an OS error; the exception
propagates (aborting the loop), carrying the state at the failure point. -/
def scanLoop (delete : Bool) (failS : Finset String) :
    List Item → Option Item → ScanState → Except (String × ScanState) ScanState
  | [], _, st => .ok st
  | x :: rest, none, st => scanLoop delete failS rest (some x) st
  | x :: rest, some prev, st =>
    if x.md5 = prev.md5 then
      let st1 : ScanState :=
        { st with count := st.count + 1, wasted := st.wasted + x.metadata.size,
                  pairs := st.pairs ++ [(prev.path, x.path)] }
      if delete then
        if x.path ∈ failS then .error (x.path, st1)
        else scanLoop delete failS rest (some x) { st1 with fs := st1.fs.erase x.path }
      else scanLoop delete failS rest (some x) st1
    else scanLoop delete failS rest (some x) st

/-- Embeds `Data.check_for_duplicates(delete, files_list)`: `files_list or self._items`
(so `none` and the empty list both fall back to the cached `items`), then the
scan over `sorted(files_list, key=lambda item: item.md5)`.  `fs` is the set of
paths existing on storage at the start of the run. -/
def check_for_duplicates (delete : Bool) (failS : Finset String)
    (files_list : Option (List Item)) (items : List Item) (fs : Finset String) :
    Except (String × ScanState) ScanState :=
  let fl := match files_list with
            | none => items
            | some l => if l.isEmpty then items else l
  scanLoop delete failS (pySorted fl) none ⟨0, 0, [], fs⟩

/-- Adjacent duplicate pairs of the scan, with an optional previous record:
`(prev, x)` is collected whenever the current record `x` has the same md5 as
the record before it.  This is the specification-side view of the positions
`i > 0` with `data_sorted[i].md5 == data_sorted[i - 1].md5`. -/
def dupAdj : Option Item → List Item → List (Item × Item)
  | _, [] => []
  | none, x :: rest => dupAdj (some x) rest
  | some prev, x :: rest =>
    (if x.md5 = prev.md5 then [(prev, x)] else []) ++ dupAdj (some x) rest

/-- All records of `ds` whose md5 equals `h` — the equal-hash group of `h`,
in list order. -/
def hashGroup (ds : List Item) (h : String) : List Item :=
  ds.filter (fun x => x.md5 == h)

/-- Specification-side quantity: the total size of the members of `h`'s
equal-hash group other than its first member. -/
def groupTailSize (ds : List Item) (h : String) : Nat :=
  (((hashGroup ds h).drop 1).map (fun x => x.metadata.size)).sum

/-- Specification-side quantity: the sum, over every content hash occurring in
`ds`, of the sizes of all members of that hash's group except the first. -/
def wastedSpec (ds : List Item) : Nat :=
  ∑ h ∈ (ds.map Item.md5).toFinset, groupTailSize ds h

/-- Specification-side view: the consecutive pairs of the sorted list at
positions `(i - 1, i)` with `i > 0` whose records carry equal hashes. -/
def adjacentDupPairs (ds : List Item) : List (Item × Item) :=
  (ds.zip ds.tail).filter (fun p => p.2.md5 == p.1.md5)

/-! ### Hasher (`FileFoundHandler._calculate_md5`) -/

/-- The incremental digest accumulator of `hashlib.md5`: its observable state
is the byte sequence fed so far, and `update` appends a block to it. -/
def md5Update (st : List Nat) (block : List Nat) : List Nat := st ++ block

/-- Feed a sequence of blocks into a fresh accumulator. -/
def streamBytes (blocks : List (List Nat)) : List Nat := blocks.foldl md5Update []

/-- The read loop `iter(lambda: file_object.read(4096), b'')`: split the
file's bytes into successive blocks of 4096. -/
def readBlocks : List Nat → List (List Nat)
  | [] => []
  | a :: l => ((a :: l).take 4096) :: readBlocks ((a :: l).drop 4096)
termination_by l => l.length
decreasing_by simp [List.length_drop]; omega

/-- The environment a worker sees: the bytes of each file, the hex-digest
function of the external `hashlib.md5` library (a pure function of the bytes
fed into the accumulator), and each file's stat data. -/
structure FileEnv where
  content : String → List Nat
  digest : List Nat → String
  metaOf : String → FileMetadata

/-- Embeds `FileFoundHandler._calculate_md5(path)`: stream the file's bytes through
the accumulator in 4096-byte blocks and return the final hex digest. -/
def calculate_md5 (env : FileEnv) (path : String) : String :=
  env.digest (streamBytes (readBlocks (env.content path)))

/-- Embeds `FileFoundHandler._do_work(path)`: hash the file and read its metadata,
producing the `Item` record for this path. -/
def do_work (env : FileEnv) (path : String) : Item :=
  { path := path, md5 := calculate_md5 env path, metadata := env.metaOf path }

/-! ### Parallel fingerprinting (`FileFoundHandler.get_files_list`) -/

/-- The collection loop of `get_files_list`: `enumerate(workers)` starting at
index `i`, appending each completed result and then invoking the progress
callback with `(index, total)`.  Returns the collected records and the
argument list of the progress-callback invocations, in order. -/
def collectLoop (env : FileEnv) (total : Nat) :
    Nat → List String → List Item × List (Nat × Nat)
  | _, [] => ([], [])
  | i, w :: ws =>
    let rest := collectLoop env total (i + 1) ws
    (do_work env w :: rest.1, (i, total) :: rest.2)

/-- Embeds `FileFoundHandler.get_files_list` on a fresh handler: one `_do_work` job
per found file, submitted in order; results are collected in submission order
with a progress report after each. -/
def get_files_list (env : FileEnv) (found_files : List String) :
    List Item × List (Nat × Nat) :=
  collectLoop env found_files.length 0 found_files

/-! ### Walker (`FileBrowser._process_files`) -/

/-- Outcome of `os.listdir` on a directory: a normal listing, a
`PermissionError`, or any other `OSError`. -/
inductive DirStatus where
  | ok
  | permissionDenied
  | otherError
deriving Repr, DecidableEq

/-- One directory entry as classified by `os.path.isfile` / `os.path.isdir`:
a regular file, or a subdirectory with its own listing outcome and entries. -/
inductive Entry where
  | file (name : String)
  | dir (name : String) (status : DirStatus) (entries : List Entry)
deriving Repr

/-- The handler invocation for one regular file: `_handle_item` is called —
collecting the `(full path, base name)` pair — when no name filter is given,
or when the filter matches the base name (`name_regex.match(file_name)`). -/
def fileHit (filt : Option (String → Bool)) (dirPath n : String) :
    List (String × String) :=
  match filt with
  | none => [(dirPath ++ "/" ++ n, n)]
  | some f => if f n then [(dirPath ++ "/" ++ n, n)] else []

/-- The `for file_name in os.listdir(...)` loop body of
`FileBrowser._process_files`, processing the entries of one directory in
order.  A regular file is handed to the handler via `fileHit`.  A
subdirectory is recursed into: a `PermissionError` raised by its listing is
caught inside the recursive call (the subtree is skipped with a warning and
the loop continues), while any other error propagates and aborts the walk. -/
def processEntries (filt : Option (String → Bool)) (dirPath : String) :
    List Entry → Except Unit (List (String × String))
  | [] => .ok []
  | .file n :: rest =>
    (processEntries filt dirPath rest).map (fun r => fileHit filt dirPath n ++ r)
  | .dir _ .permissionDenied _ :: rest => processEntries filt dirPath rest
  | .dir _ .otherError _ :: _ => .error ()
  | .dir n .ok sub :: rest => do
    let inner ← processEntries filt (dirPath ++ "/" ++ n) sub
    let r ← processEntries filt dirPath rest
    pure (inner ++ r)

/-- Embeds `FileBrowser._process_files(directory_path, ...)` on one directory: the
`try: for ... os.listdir(directory_path) ... except PermissionError` body.
A denied listing is caught and yields no files; any other listing error
propagates. -/
def processDir (filt : Option (String → Bool)) (dirPath : String)
    (status : DirStatus) (entries : List Entry) :
    Except Unit (List (String × String)) :=
  match status with
  | .permissionDenied => .ok []
  | .otherError => .error ()
  | .ok => processEntries filt dirPath entries

/-! ### Concrete records used by witnesses and counterexamples -/

def exMeta (n : Nat) : FileMetadata := ⟨n, 0, 0⟩

def itemA : Item := ⟨"pa", "h", exMeta 10⟩

def itemB : Item := ⟨"pb", "h", exMeta 11⟩

def itemC : Item := ⟨"pc", "h", exMeta 12⟩

def itemD : Item := ⟨"pd", "k", exMeta 7⟩

/-- A trivial worker environment: every file is empty. -/
def exEnv : FileEnv := ⟨fun _ => [], fun _ => "d", fun _ => exMeta 0⟩

/-- A worker environment where every file holds the bytes `[1,2,3,4,5]` and
the digest is the textual length of the accumulated bytes. -/
def exEnv2 : FileEnv := ⟨fun _ => [1, 2, 3, 4, 5], fun bs => toString bs.length,
  fun _ => exMeta 0⟩

/-! ### Lemmas about the stable sort -/

theorem pySorted_sorted (l : List Item) : List.Sorted md5le (pySorted l) :=
  List.sorted_insertionSort md5le l

theorem pySorted_perm (l : List Item) : List.Perm (pySorted l) l :=
  List.perm_insertionSort md5le l

/-- Stability of `pySorted`: the records carrying any fixed md5 appear in the
output in exactly their input order. -/
theorem pySorted_stable (l : List Item) (h : String) :
    (pySorted l).filter (fun x => x.md5 == h) = l.filter (fun x => x.md5 == h) := by
  have hall : ∀ x ∈ l.filter (fun x => x.md5 == h), x.md5 = h := by
    intro x hx
    simpa using List.of_mem_filter hx
  have hpw : (l.filter (fun x => x.md5 == h)).Pairwise md5le := by
    apply List.pairwise_of_forall_mem_list
    intro x hx y hy
    show x.md5 ≤ y.md5
    rw [hall x hx, hall y hy]
  have hsub : List.Sublist (l.filter (fun x => x.md5 == h)) (pySorted l) :=
    List.sublist_insertionSort hpw (List.filter_sublist l)
  have hsub2 : List.Sublist (l.filter (fun x => x.md5 == h))
      ((pySorted l).filter (fun x => x.md5 == h)) := by
    have hself : (l.filter (fun x => x.md5 == h)).filter (fun x => x.md5 == h) =
        l.filter (fun x => x.md5 == h) :=
      List.filter_eq_self.mpr (fun x hx => by simpa using hall x hx)
    have := hsub.filter (fun x => x.md5 == h)
    rwa [hself] at this
  have hperm : List.Perm ((pySorted l).filter (fun x => x.md5 == h))
      (l.filter (fun x => x.md5 == h)) := (pySorted_perm l).filter _
  exact (hsub2.eq_of_length hperm.length_eq.symm).symm

/-- In a sorted list `a :: b :: t` with `a.md5 ≠ b.md5`, the hash of `a` does
not occur among the later records. -/
theorem sorted_head_md5_notmem {a b : Item} {t : List Item}
    (hs : List.Sorted md5le (a :: b :: t)) (hne : a.md5 ≠ b.md5) :
    a.md5 ∉ (b :: t).map Item.md5 := by
  intro hmem
  rcases List.mem_map.mp hmem with ⟨y, hy, hmd5⟩
  have hab : a.md5 ≤ b.md5 := (List.sorted_cons.mp hs).1 b (by simp)
  have hby : b.md5 ≤ y.md5 := by
    rcases List.mem_cons.mp hy with rfl | hyt
    · exact le_refl _
    · exact (List.sorted_cons.mp (List.sorted_cons.mp hs).2).1 y hyt
  exact hne (le_antisymm hab (hmd5 ▸ hby))

/-! ### Lemmas about the adjacent-duplicate scan -/

theorem dupAdj_none_cons (x : Item) (rest : List Item) :
    dupAdj none (x :: rest) = dupAdj (some x) rest := rfl

theorem dupAdj_none_cons_cons (a b : Item) (t : List Item) :
    dupAdj none (a :: b :: t) =
      (if b.md5 = a.md5 then [(a, b)] else []) ++ dupAdj none (b :: t) := rfl

/-- The second component of every collected adjacent pair is a record of the
scanned list. -/
theorem dupAdj_snd_mem :
    ∀ (prev : Option Item) (ds : List Item), ∀ p ∈ dupAdj prev ds, p.2 ∈ ds := by
  intro prev ds
  induction ds generalizing prev with
  | nil => intro p hp; simp [dupAdj] at hp
  | cons x rest ih =>
    intro p hp
    cases prev with
    | none => exact List.mem_cons_of_mem x (ih (some x) p hp)
    | some q =>
      simp only [dupAdj, List.mem_append] at hp
      rcases hp with hp | hp
      · by_cases hx : x.md5 = q.md5
        · simp [hx] at hp; simp [hp]
        · simp [hx] at hp
      · exact List.mem_cons_of_mem x (ih (some x) p hp)

/-- Both members of every collected adjacent pair carry the same md5. -/
theorem dupAdj_md5_eq :
    ∀ (prev : Option Item) (ds : List Item), ∀ p ∈ dupAdj prev ds, p.2.md5 = p.1.md5 := by
  intro prev ds
  induction ds generalizing prev with
  | nil => intro p hp; simp [dupAdj] at hp
  | cons x rest ih =>
    intro p hp
    cases prev with
    | none => exact ih (some x) p hp
    | some q =>
      simp only [dupAdj, List.mem_append] at hp
      rcases hp with hp | hp
      · by_cases hx : x.md5 = q.md5
        · simp [hx] at hp; simp [hp, hx]
        · simp [hx] at hp
      · exact ih (some x) p hp

/-- The collected adjacent pairs are exactly the consecutive pairs of the list
(with the given predecessor in front) whose members share an md5. -/
theorem dupAdj_some_eq_zip (ds : List Item) : ∀ prev : Item,
    dupAdj (some prev) ds =
      ((prev :: ds).zip ds).filter (fun p => p.2.md5 == p.1.md5) := by
  induction ds with
  | nil => intro prev; rfl
  | cons x rest ih =>
    intro prev
    show (if x.md5 = prev.md5 then [(prev, x)] else []) ++ dupAdj (some x) rest = _
    rw [List.zip_cons_cons, List.filter_cons, ih x]
    by_cases hx : x.md5 = prev.md5 <;> simp [hx]

/-- The value of `dupAdj` with no predecessor, as consecutive pairs of the list itself. -/
theorem dupAdj_none_eq_zip (ds : List Item) :
    dupAdj none ds = (ds.zip ds.tail).filter (fun p => p.2.md5 == p.1.md5) := by
  cases ds with
  | nil => rfl
  | cons x rest => exact dupAdj_some_eq_zip rest x

/-- On a sorted list, the collected duplicates with md5 `h` are exactly the
equal-hash group of `h` minus its first member. -/
theorem dupAdj_filter_eq_group_tail :
    ∀ (ds : List Item), List.Sorted md5le ds → ∀ h : String,
      ((dupAdj none ds).map Prod.snd).filter (fun x => x.md5 == h) =
        (hashGroup ds h).drop 1 := by
  intro ds
  induction ds with
  | nil => intro _ h; simp [dupAdj, hashGroup]
  | cons a rest ih =>
    intro hs h
    cases rest with
    | nil =>
      simp only [dupAdj, hashGroup, List.filter_cons, List.filter_nil]
      by_cases ha : a.md5 = h <;> simp [ha, dupAdj]
    | cons b t =>
      have hst : List.Sorted md5le (b :: t) := (List.sorted_cons.mp hs).2
      have iht := ih hst h
      rw [dupAdj_none_cons_cons]
      by_cases hab : b.md5 = a.md5
      · by_cases hha : a.md5 = h
        · have hb : b.md5 = h := hab.trans hha
          simp only [if_pos hab, List.map_append, List.map_cons, List.map_nil,
            List.filter_append, List.filter_cons]
          rw [iht]
          simp [hashGroup, List.filter_cons, hha, hb]
        · have hb : ¬b.md5 = h := fun hc => hha (hab.symm.trans hc)
          simp only [if_pos hab, List.map_append, List.map_cons, List.map_nil,
            List.filter_append, List.filter_cons]
          rw [iht]
          simp [hashGroup, List.filter_cons, hha, hb]
      · have hnot : a.md5 ∉ (b :: t).map Item.md5 :=
          sorted_head_md5_notmem hs (fun hc => hab hc.symm)
        simp only [if_neg hab, List.nil_append]
        rw [iht]
        by_cases hha : a.md5 = h
        · have hgbt : hashGroup (b :: t) h = [] := by
            apply List.filter_eq_nil_iff.mpr
            intro y hy hyh
            have hyh2 : y.md5 = h := by simpa using hyh
            exact hnot (by rw [hha, ← hyh2]; exact List.mem_map_of_mem Item.md5 hy)
          have hg : hashGroup (a :: b :: t) h = a :: hashGroup (b :: t) h := by
            simp [hashGroup, List.filter_cons, hha]
          rw [hg, hgbt]
          simp
        · have hg : hashGroup (a :: b :: t) h = hashGroup (b :: t) h := by
            simp [hashGroup, List.filter_cons, hha]
          rw [hg]

/-! ### Characterizations of the scan loop -/

theorem scanLoop_step_first (delete : Bool) (failS : Finset String)
    (x : Item) (rest : List Item) (st : ScanState) :
    scanLoop delete failS (x :: rest) none st =
      scanLoop delete failS rest (some x) st := rfl

theorem scanLoop_step_nondup (delete : Bool) (failS : Finset String)
    (x q : Item) (rest : List Item) (st : ScanState) (hx : ¬x.md5 = q.md5) :
    scanLoop delete failS (x :: rest) (some q) st =
      scanLoop delete failS rest (some x) st := by
  simp [scanLoop, hx]

theorem scanLoop_step_dup_nodel (failS : Finset String)
    (x q : Item) (rest : List Item) (st : ScanState) (hx : x.md5 = q.md5) :
    scanLoop false failS (x :: rest) (some q) st =
      scanLoop false failS rest (some x)
        { st with count := st.count + 1, wasted := st.wasted + x.metadata.size,
                  pairs := st.pairs ++ [(q.path, x.path)] } := by
  simp [scanLoop, hx]

theorem scanLoop_step_dup_del_ok (failS : Finset String)
    (x q : Item) (rest : List Item) (st : ScanState)
    (hx : x.md5 = q.md5) (hxf : x.path ∉ failS) :
    scanLoop true failS (x :: rest) (some q) st =
      scanLoop true failS rest (some x)
        { st with count := st.count + 1, wasted := st.wasted + x.metadata.size,
                  pairs := st.pairs ++ [(q.path, x.path)],
                  fs := st.fs.erase x.path } := by
  simp [scanLoop, hx, hxf]

theorem scanLoop_step_dup_del_fail (failS : Finset String)
    (x q : Item) (rest : List Item) (st : ScanState)
    (hx : x.md5 = q.md5) (hxf : x.path ∈ failS) :
    scanLoop true failS (x :: rest) (some q) st =
      .error (x.path,
        { st with count := st.count + 1, wasted := st.wasted + x.metadata.size,
                  pairs := st.pairs ++ [(q.path, x.path)] }) := by
  simp [scanLoop, hx, hxf]

/-- With delete mode off, the scan never fails and computes exactly the
adjacent-duplicate count, wasted-space sum, printed pairs, and an unchanged
file system. -/
theorem scanLoop_false (failS : Finset String) :
    ∀ (ds : List Item) (prev : Option Item) (st : ScanState),
      scanLoop false failS ds prev st =
        .ok { count := st.count + (dupAdj prev ds).length,
              wasted := st.wasted + ((dupAdj prev ds).map (fun p => p.2.metadata.size)).sum,
              pairs := st.pairs ++ (dupAdj prev ds).map (fun p => (p.1.path, p.2.path)),
              fs := st.fs } := by
  intro ds
  induction ds with
  | nil => intro prev st; simp [scanLoop, dupAdj]
  | cons x rest ih =>
    intro prev st
    cases prev with
    | none => simpa [scanLoop, dupAdj] using ih (some x) st
    | some q =>
      by_cases hx : x.md5 = q.md5
      · have hd : dupAdj (some q) (x :: rest) = (q, x) :: dupAdj (some x) rest := by
          simp [dupAdj, hx]
        rw [hd, scanLoop_step_dup_nodel failS x q rest st hx, ih (some x) _]
        simp only [Except.ok.injEq, ScanState.mk.injEq, List.length_cons, List.map_cons,
          List.sum_cons]
        refine ⟨by omega, by omega, ?_, trivial⟩
        simp [List.append_assoc]
      · have hd : dupAdj (some q) (x :: rest) = dupAdj (some x) rest := by
          simp [dupAdj, hx]
        rw [hd, scanLoop_step_nondup false failS x q rest st hx]
        exact ih (some x) st

/-- Erasing a list of keys from a finite set one by one: a key survives iff it
was present and is not among the erased ones. -/
theorem mem_foldl_erase :
    ∀ (ps : List String) (fs : Finset String) (q : String),
      q ∈ ps.foldl Finset.erase fs ↔ q ∈ fs ∧ q ∉ ps := by
  intro ps
  induction ps with
  | nil => intro fs q; simp
  | cons a t ih =>
    intro fs q
    rw [List.foldl_cons, ih]
    simp only [Finset.mem_erase, List.mem_cons]
    constructor
    · rintro ⟨⟨hne, hq⟩, ht⟩
      exact ⟨hq, by rintro (rfl | hc) <;> [exact hne rfl; exact ht hc]⟩
    · rintro ⟨hq, hn⟩
      exact ⟨⟨fun hc => hn (Or.inl hc), hq⟩, fun hc => hn (Or.inr hc)⟩

/-- With delete mode on and every duplicate's removal succeeding, the scan
returns the same report as without deletion, and the file system with every
duplicate's path erased. -/
theorem scanLoop_true_ok (failS : Finset String) :
    ∀ (ds : List Item) (prev : Option Item) (st : ScanState),
      (∀ p ∈ dupAdj prev ds, p.2.path ∉ failS) →
      scanLoop true failS ds prev st =
        .ok { count := st.count + (dupAdj prev ds).length,
              wasted := st.wasted + ((dupAdj prev ds).map (fun p => p.2.metadata.size)).sum,
              pairs := st.pairs ++ (dupAdj prev ds).map (fun p => (p.1.path, p.2.path)),
              fs := ((dupAdj prev ds).map (fun p => p.2.path)).foldl Finset.erase st.fs } := by
  intro ds
  induction ds with
  | nil => intro prev st _; simp [scanLoop, dupAdj]
  | cons x rest ih =>
    intro prev st hok
    cases prev with
    | none =>
      simpa [scanLoop, dupAdj] using ih (some x) st (by simpa [dupAdj] using hok)
    | some q =>
      by_cases hx : x.md5 = q.md5
      · have hd : dupAdj (some q) (x :: rest) = (q, x) :: dupAdj (some x) rest := by
          simp [dupAdj, hx]
        have hxf : x.path ∉ failS := hok (q, x) (by rw [hd]; exact List.mem_cons_self _ _)
        have hrest : ∀ p ∈ dupAdj (some x) rest, p.2.path ∉ failS := fun p hp =>
          hok p (by rw [hd]; exact List.mem_cons_of_mem _ hp)
        rw [hd, scanLoop_step_dup_del_ok failS x q rest st hx hxf, ih (some x) _ hrest]
        simp only [Except.ok.injEq, ScanState.mk.injEq, List.length_cons, List.map_cons,
          List.sum_cons, List.foldl_cons]
        refine ⟨by omega, by omega, ?_, trivial⟩
        simp [List.append_assoc]
      · have hd : dupAdj (some q) (x :: rest) = dupAdj (some x) rest := by
          simp [dupAdj, hx]
        have hrest : ∀ p ∈ dupAdj (some x) rest, p.2.path ∉ failS := fun p hp =>
          hok p (by rw [hd]; exact hp)
        rw [hd, scanLoop_step_nondup true failS x q rest st hx]
        exact ih (some x) st hrest

/-- With delete mode on, as soon as some collected duplicate's removal fails,
the scan raises (returns an error). -/
theorem scanLoop_true_error (failS : Finset String) :
    ∀ (ds : List Item) (prev : Option Item) (st : ScanState),
      (∃ p ∈ dupAdj prev ds, p.2.path ∈ failS) →
      ∃ e, scanLoop true failS ds prev st = .error e := by
  intro ds
  induction ds with
  | nil => intro prev st h; simp [dupAdj] at h
  | cons x rest ih =>
    intro prev st h
    cases prev with
    | none => exact ih (some x) st (by simpa [dupAdj] using h)
    | some q =>
      by_cases hx : x.md5 = q.md5
      · by_cases hxf : x.path ∈ failS
        · exact ⟨_, scanLoop_step_dup_del_fail failS x q rest st hx hxf⟩
        · have hd : dupAdj (some q) (x :: rest) = (q, x) :: dupAdj (some x) rest := by
            simp [dupAdj, hx]
          rw [hd] at h
          obtain ⟨p, hp, hpf⟩ := h
          rcases List.mem_cons.mp hp with rfl | hp
          · exact absurd hpf hxf
          · rw [scanLoop_step_dup_del_ok failS x q rest st hx hxf]
            exact ih (some x) _ ⟨p, hp, hpf⟩
      · have hd : dupAdj (some q) (x :: rest) = dupAdj (some x) rest := by
          simp [dupAdj, hx]
        rw [hd] at h
        rw [scanLoop_step_nondup true failS x q rest st hx]
        exact ih (some x) st h

/-! ### Summation over equal-hash fibers -/

/-- Summing a weight over the md5-fibers of `D`, indexed by any finite set
containing every md5 of `D`, recovers the plain sum over `D`. -/
theorem sum_fiber_md5 (g : Item → Nat) :
    ∀ (D : List Item) (S : Finset String), (∀ x ∈ D, x.md5 ∈ S) →
      ∑ h ∈ S, ((D.filter (fun x => x.md5 == h)).map g).sum = (D.map g).sum := by
  intro D
  induction D with
  | nil => intro S _; simp
  | cons d D' ih =>
    intro S hS
    have hd : d.md5 ∈ S := hS d (List.mem_cons_self d D')
    have hS' : ∀ x ∈ D', x.md5 ∈ S := fun x hx => hS x (List.mem_cons_of_mem d hx)
    have hsplit : ∀ h : String,
        (((d :: D').filter (fun x => x.md5 == h)).map g).sum =
          (if d.md5 = h then g d else 0) +
            ((D'.filter (fun x => x.md5 == h)).map g).sum := by
      intro h
      rw [List.filter_cons]
      by_cases hdh : d.md5 = h
      · simp [hdh]
      · simp [hdh]
    calc ∑ h ∈ S, (((d :: D').filter (fun x => x.md5 == h)).map g).sum
        = ∑ h ∈ S, ((if d.md5 = h then g d else 0) +
            ((D'.filter (fun x => x.md5 == h)).map g).sum) :=
          Finset.sum_congr rfl (fun h _ => hsplit h)
      _ = (∑ h ∈ S, if d.md5 = h then g d else 0) +
            ∑ h ∈ S, ((D'.filter (fun x => x.md5 == h)).map g).sum :=
          Finset.sum_add_distrib
      _ = g d + (D'.map g).sum := by
          rw [Finset.sum_ite_eq S d.md5 (fun _ => g d), if_pos hd, ih S hS']
      _ = ((d :: D').map g).sum := by simp

/-- On a sorted list, the number of adjacent equal-hash positions plus the
number of distinct hashes equals the length. -/
theorem dupAdj_length_add_card :
    ∀ ds : List Item, List.Sorted md5le ds →
      (dupAdj none ds).length + ((ds.map Item.md5).toFinset).card = ds.length := by
  intro ds
  induction ds with
  | nil => intro _; simp [dupAdj]
  | cons a rest ih =>
    intro hs
    cases rest with
    | nil => simp [dupAdj]
    | cons b t =>
      have hst : List.Sorted md5le (b :: t) := (List.sorted_cons.mp hs).2
      have iht := ih hst
      rw [dupAdj_none_cons_cons]
      by_cases hab : b.md5 = a.md5
      · have hmem : a.md5 ∈ ((b :: t).map Item.md5).toFinset := by
          simp only [List.mem_toFinset, List.map_cons, List.mem_cons]
          exact Or.inl hab.symm
        have hins : (((a :: b :: t).map Item.md5).toFinset).card =
            (((b :: t).map Item.md5).toFinset).card := by
          rw [List.map_cons, List.toFinset_cons, Finset.insert_eq_self.mpr hmem]
        rw [if_pos hab]
        simp only [List.singleton_append, List.length_cons] at iht ⊢
        omega
      · have hnot : a.md5 ∉ ((b :: t).map Item.md5).toFinset := by
          simpa using sorted_head_md5_notmem hs (fun hc => hab hc.symm)
        have hins : (((a :: b :: t).map Item.md5).toFinset).card =
            (((b :: t).map Item.md5).toFinset).card + 1 := by
          rw [List.map_cons, List.toFinset_cons, Finset.card_insert_of_not_mem hnot]
        rw [if_neg hab]
        simp only [List.nil_append, List.length_cons] at iht ⊢
        omega

/-! ### Fingerprinting-stage lemmas -/

/-- The collection loop returns one `_do_work` record per submitted path, in
submission order, and one progress invocation `(index, total)` per item with
consecutive indices starting at the initial one. -/
theorem collectLoop_eq (env : FileEnv) (total : Nat) :
    ∀ (ws : List String) (i : Nat),
      collectLoop env total i ws =
        (ws.map (do_work env), (List.range' i ws.length).map (fun k => (k, total))) := by
  intro ws
  induction ws with
  | nil => intro i; simp [collectLoop]
  | cons w ws' ih =>
    intro i
    rw [List.length_cons, List.range'_succ]
    simp [collectLoop, ih (i + 1)]

/-! ### Hasher lemmas -/

/-- Streaming blocks into the accumulator feeds exactly their concatenation. -/
theorem streamBytes_eq_flatten (blocks : List (List Nat)) :
    streamBytes blocks = blocks.flatten := by
  suffices h : ∀ acc, blocks.foldl md5Update acc = acc ++ blocks.flatten by
    simpa [streamBytes] using h []
  induction blocks with
  | nil => intro acc; simp
  | cons b bs ih => intro acc; simp [md5Update, ih, List.append_assoc]

/-- The 4096-byte read loop partitions the content: concatenating the blocks
gives back the bytes. -/
theorem readBlocks_flatten : ∀ c : List Nat, (readBlocks c).flatten = c := by
  intro c
  induction c using readBlocks.induct with
  | case1 => simp [readBlocks]
  | case2 a l ih =>
    rw [readBlocks]
    simp only [List.flatten_cons, ih, List.take_append_drop]

/-! ### Walker lemmas -/

theorem processEntries_step_nil (filt : Option (String → Bool)) (dirPath : String) :
    processEntries filt dirPath [] = .ok [] := by
  simp [processEntries]

theorem processEntries_step_file (filt : Option (String → Bool))
    (dirPath m : String) (rest : List Entry) :
    processEntries filt dirPath (.file m :: rest) =
      (processEntries filt dirPath rest).map (fun r => fileHit filt dirPath m ++ r) := by
  simp [processEntries]

theorem processEntries_step_denied (filt : Option (String → Bool))
    (dirPath m : String) (sub rest : List Entry) :
    processEntries filt dirPath (.dir m .permissionDenied sub :: rest) =
      processEntries filt dirPath rest := by
  simp [processEntries]

theorem processEntries_step_other (filt : Option (String → Bool))
    (dirPath m : String) (sub rest : List Entry) :
    processEntries filt dirPath (.dir m .otherError sub :: rest) = .error () := by
  simp [processEntries]

theorem processEntries_step_okdir (filt : Option (String → Bool))
    (dirPath m : String) (sub rest : List Entry) :
    processEntries filt dirPath (.dir m .ok sub :: rest) = (do
      let inner ← processEntries filt (dirPath ++ "/" ++ m) sub
      let r ← processEntries filt dirPath rest
      pure (inner ++ r)) := by
  simp [processEntries]

/-- A directory whose listing is denied contributes nothing, and the walk of
the surrounding entry list is otherwise unchanged: siblings before and after
it are still discovered. -/
theorem processEntries_skip_denied (filt : Option (String → Bool)) (dirPath : String) :
    ∀ (es₁ : List Entry) (n : String) (sub es₂ : List Entry),
      processEntries filt dirPath (es₁ ++ .dir n .permissionDenied sub :: es₂) =
        processEntries filt dirPath (es₁ ++ es₂) := by
  intro es₁
  induction es₁ with
  | nil =>
    intro n sub es₂
    simp only [List.nil_append]
    exact processEntries_step_denied filt dirPath n sub es₂
  | cons e es₁' ih =>
    intro n sub es₂
    cases e with
    | file m => simp only [List.cons_append, processEntries_step_file, ih]
    | dir m st sub' =>
      cases st with
      | ok => simp only [List.cons_append, processEntries_step_okdir, ih]
      | permissionDenied => simp only [List.cons_append, processEntries_step_denied, ih]
      | otherError => simp only [List.cons_append, processEntries_step_other]

/-- As soon as an entry list reaches a directory whose listing fails with an
error other than access denial, the whole walk aborts with that error,
provided the entries before it were themselves processed successfully. -/
theorem processEntries_abort_other (filt : Option (String → Bool)) (dirPath : String) :
    ∀ (es₁ : List Entry), (∃ acc, processEntries filt dirPath es₁ = .ok acc) →
      ∀ (n : String) (sub es₂ : List Entry),
        processEntries filt dirPath (es₁ ++ .dir n .otherError sub :: es₂) = .error () := by
  intro es₁
  induction es₁ with
  | nil =>
    intro _ n sub es₂
    simp only [List.nil_append]
    exact processEntries_step_other filt dirPath n sub es₂
  | cons e es₁' ih =>
    intro hok n sub es₂
    obtain ⟨acc, hacc⟩ := hok
    cases e with
    | file m =>
      rw [processEntries_step_file] at hacc
      cases hrec : processEntries filt dirPath es₁' with
      | error err => exact Except.noConfusion (hrec ▸ hacc)
      | ok acc' =>
        rw [List.cons_append, processEntries_step_file, ih ⟨acc', hrec⟩ n sub es₂]
        rfl
    | dir m st sub' =>
      cases st with
      | ok =>
        rw [processEntries_step_okdir] at hacc
        cases hin : processEntries filt (dirPath ++ "/" ++ m) sub' with
        | error err =>
          rw [hin] at hacc
          exact Except.noConfusion hacc
        | ok accIn =>
          rw [hin] at hacc
          cases hrec : processEntries filt dirPath es₁' with
          | error err =>
            rw [hrec] at hacc
            exact Except.noConfusion hacc
          | ok acc' =>
            rw [List.cons_append, processEntries_step_okdir, hin,
              ih ⟨acc', hrec⟩ n sub es₂]
            rfl
      | permissionDenied =>
        rw [processEntries_step_denied] at hacc
        rw [List.cons_append, processEntries_step_denied]
        exact ih ⟨acc, hacc⟩ n sub es₂
      | otherError =>
        rw [processEntries_step_other] at hacc
        exact Except.noConfusion hacc

/-! ### Claim theorems for the duplicate detector -/

/-- C1: for every list of fingerprinted records, detection stable-sorts the
records by content hash ascending (ties broken by original encounter order),
counts one duplicate for every position `i > 0` whose hash equals the hash at
position `i - 1`, and reports wasted bytes equal to the sum of the sizes of
all members of each equal-hash group except the group's first member. -/
theorem C1_detect_sorts_counts_and_sums (l : List Item) (fs : Finset String) :
    List.Sorted md5le (pySorted l) ∧
    (∀ h : String,
      (pySorted l).filter (fun x => x.md5 == h) = l.filter (fun x => x.md5 == h)) ∧
    List.Perm (pySorted l) l ∧
    check_for_duplicates false ∅ none l fs =
      .ok { count := (adjacentDupPairs (pySorted l)).length,
            wasted := wastedSpec (pySorted l),
            pairs := (adjacentDupPairs (pySorted l)).map (fun p => (p.1.path, p.2.path)),
            fs := fs } := by
  refine ⟨pySorted_sorted l, pySorted_stable l, pySorted_perm l, ?_⟩
  have hS : ∀ x ∈ (dupAdj none (pySorted l)).map Prod.snd,
      x.md5 ∈ ((pySorted l).map Item.md5).toFinset := by
    intro x hx
    obtain ⟨p, hp, rfl⟩ := List.mem_map.mp hx
    simp only [List.mem_toFinset]
    exact List.mem_map_of_mem Item.md5 (dupAdj_snd_mem none (pySorted l) p hp)
  have hfib := sum_fiber_md5 (fun x => x.metadata.size)
      ((dupAdj none (pySorted l)).map Prod.snd) (((pySorted l).map Item.md5).toFinset) hS
  have hgt := dupAdj_filter_eq_group_tail (pySorted l) (pySorted_sorted l)
  have hw : ((dupAdj none (pySorted l)).map (fun p => p.2.metadata.size)).sum =
      wastedSpec (pySorted l) := by
    have hmap : (dupAdj none (pySorted l)).map (fun p => p.2.metadata.size) =
        ((dupAdj none (pySorted l)).map Prod.snd).map (fun x => x.metadata.size) := by
      rw [List.map_map]; rfl
    rw [hmap, ← hfib, wastedSpec]
    exact Finset.sum_congr rfl (fun h _ => by rw [groupTailSize, hgt h])
  show scanLoop false ∅ (pySorted l) none ⟨0, 0, [], fs⟩ = _
  rw [scanLoop_false ∅ (pySorted l) none ⟨0, 0, [], fs⟩]
  simp only [Except.ok.injEq, ScanState.mk.injEq]
  refine ⟨?_, ?_, ?_, trivial⟩
  · rw [Nat.zero_add, dupAdj_none_eq_zip]; rfl
  · rw [Nat.zero_add, hw]
  · rw [List.nil_append, dupAdj_none_eq_zip]; rfl

/-- C5: for every list of records, the reported duplicate count plus the
number of distinct content hashes occurring in the list equals the total
number of records. -/
theorem C5_count_plus_distinct_hashes (l : List Item) (fs : Finset String) :
    ∃ st : ScanState, check_for_duplicates false ∅ none l fs = .ok st ∧
      st.count + ((l.map Item.md5).toFinset).card = l.length := by
  refine ⟨_, scanLoop_false ∅ (pySorted l) none ⟨0, 0, [], fs⟩, ?_⟩
  show 0 + (dupAdj none (pySorted l)).length + ((l.map Item.md5).toFinset).card = l.length
  have hcard : (((pySorted l).map Item.md5).toFinset).card =
      ((l.map Item.md5).toFinset).card := by
    rw [List.toFinset_eq_of_perm _ _ ((pySorted_perm l).map Item.md5)]
  have hlen : (pySorted l).length = l.length := (pySorted_perm l).length_eq
  have hmain := dupAdj_length_add_card (pySorted l) (pySorted_sorted l)
  omega

/-- C2 counterexample: on three records `pa`, `pb`, `pc` sharing the hash
`"h"`, the keeper (first member of the group in sorted/encounter order) is
`pa`, yet the reported pair for the duplicate `pc` is `("pb", "pc")`: the
duplicate is paired with its immediate predecessor `pb`, not with the
keeper `pa`. -/
theorem C2_pair_not_keeper_cex :
    check_for_duplicates false ∅ none [itemA, itemB, itemC] ∅ =
      .ok { count := 2, wasted := 23,
            pairs := [("pa", "pb"), ("pb", "pc")], fs := ∅ } ∧
    hashGroup (pySorted [itemA, itemB, itemC]) "h" = [itemA, itemB, itemC] ∧
    itemA.path = "pa" ∧
    ("pb", "pc") ∈ [(("pa" : String), ("pb" : String)), ("pb", "pc")] ∧
    ("pb" : String) ≠ "pa" := by
  refine ⟨rfl, rfl, rfl, by decide, by decide⟩

/-- C2 amended: every reported pair is `(predecessor, duplicate)` where the
predecessor is the duplicate's immediate predecessor in the sorted sequence
(which shares its content hash and hence lies in the same group), but is not
in general the group's first member. -/
theorem C2_pairs_are_predecessor_pairs (l : List Item) (fs : Finset String) :
    ∃ st : ScanState, check_for_duplicates false ∅ none l fs = .ok st ∧
      st.pairs = (adjacentDupPairs (pySorted l)).map (fun p => (p.1.path, p.2.path)) ∧
      ∀ p ∈ adjacentDupPairs (pySorted l), p.2.md5 = p.1.md5 := by
  refine ⟨_, scanLoop_false ∅ (pySorted l) none ⟨0, 0, [], fs⟩, ?_, ?_⟩
  · show [] ++ (dupAdj none (pySorted l)).map (fun p => (p.1.path, p.2.path)) = _
    rw [List.nil_append, dupAdj_none_eq_zip]; rfl
  · intro p hp
    rw [show adjacentDupPairs (pySorted l) = dupAdj none (pySorted l) from
      (dupAdj_none_eq_zip (pySorted l)).symm] at hp
    exact dupAdj_md5_eq none (pySorted l) p hp

/-- C3: with delete mode on (and deletions succeeding), the keeper — the
first member of each equal-hash group of the sorted records — is never
deleted: afterwards it still exists while every other member of its group has
been removed. -/
theorem C3_delete_keeps_keeper (l : List Item) (fs : Finset String)
    (hnd : (l.map Item.path).Nodup) (hfs : ∀ x ∈ l, x.path ∈ fs) :
    ∃ st : ScanState, check_for_duplicates true ∅ none l fs = .ok st ∧
      ∀ (h : String) (k : Item) (gt : List Item),
        hashGroup (pySorted l) h = k :: gt →
          k.path ∈ st.fs ∧ ∀ x ∈ gt, x.path ∉ st.fs := by
  have hok : ∀ p ∈ dupAdj none (pySorted l), p.2.path ∉ (∅ : Finset String) :=
    fun p _ => Finset.not_mem_empty _
  refine ⟨_, scanLoop_true_ok ∅ (pySorted l) none ⟨0, 0, [], fs⟩ hok, ?_⟩
  intro h k gt hgrp
  have hsorted : List.Sorted md5le (pySorted l) := pySorted_sorted l
  have hgt := dupAdj_filter_eq_group_tail (pySorted l) hsorted h
  have hnd_ds : ((pySorted l).map Item.path).Nodup :=
    (List.Perm.nodup_iff ((pySorted_perm l).map Item.path)).mpr hnd
  have hnodup_ds : (pySorted l).Nodup := List.Nodup.of_map Item.path hnd_ds
  have hmemk : k ∈ hashGroup (pySorted l) h := by
    rw [hgrp]; exact List.mem_cons_self k gt
  have hk_ds : k ∈ pySorted l := List.mem_of_mem_filter hmemk
  have hkmd5 := List.of_mem_filter hmemk
  constructor
  · show k.path ∈
      ((dupAdj none (pySorted l)).map (fun p => p.2.path)).foldl Finset.erase fs
    rw [mem_foldl_erase]
    refine ⟨hfs k ((pySorted_perm l).subset hk_ds), ?_⟩
    intro hmem
    obtain ⟨p, hp, hpath⟩ := List.mem_map.mp hmem
    have hpd : p.2 ∈ pySorted l := dupAdj_snd_mem none (pySorted l) p hp
    have hpk : p.2 = k := List.inj_on_of_nodup_map hnd_ds hpd hk_ds hpath
    have hkD : k ∈ ((dupAdj none (pySorted l)).map Prod.snd).filter
        (fun x => x.md5 == h) := by
      rw [List.mem_filter]
      exact ⟨List.mem_map.mpr ⟨p, hp, hpk⟩, hkmd5⟩
    rw [hgt, hgrp, List.drop_one, List.tail_cons] at hkD
    have hnog : (k :: gt).Nodup := by
      rw [← hgrp]
      exact List.Nodup.sublist (List.filter_sublist _) hnodup_ds
    exact (List.nodup_cons.mp hnog).1 hkD
  · intro x hx
    show x.path ∉
      ((dupAdj none (pySorted l)).map (fun p => p.2.path)).foldl Finset.erase fs
    rw [mem_foldl_erase]
    rintro ⟨-, hnotin⟩
    apply hnotin
    have hxD : x ∈ ((dupAdj none (pySorted l)).map Prod.snd).filter
        (fun x => x.md5 == h) := by
      rw [hgt, hgrp, List.drop_one, List.tail_cons]
      exact hx
    obtain ⟨p, hp, hpx⟩ := List.mem_map.mp (List.mem_of_mem_filter hxD)
    exact List.mem_map.mpr ⟨p, hp, by rw [hpx]⟩

/-- C3 witness: a concrete run — records `pa`, `pb` share the hash `"h"`,
`pd` has hash `"k"` — satisfying the hypotheses of `C3_delete_keeps_keeper`. -/
theorem C3_delete_keeps_keeper_witness :
    ∃ st : ScanState,
      check_for_duplicates true ∅ none [itemA, itemB, itemD] {"pa", "pb", "pd"} =
        .ok st ∧
      ∀ (h : String) (k : Item) (gt : List Item),
        hashGroup (pySorted [itemA, itemB, itemD]) h = k :: gt →
          k.path ∈ st.fs ∧ ∀ x ∈ gt, x.path ∉ st.fs :=
  C3_delete_keeps_keeper [itemA, itemB, itemD] {"pa", "pb", "pd"}
    (by decide) (by decide)

/-- C4 counterexample: with delete on and removal of `pb` failing, the run
does not continue with the remaining duplicates: it aborts with the exception
from `os.remove`, having processed only the first duplicate (a single printed
pair), and the later duplicate `pc` is left untouched — its path is still
present in the (unchanged) file-system set carried by the exception. -/
theorem C4_failure_aborts_cex :
    check_for_duplicates true {"pb"} none [itemA, itemB, itemC] {"pa", "pb", "pc"} =
      .error ("pb", { count := 1, wasted := 11, pairs := [("pa", "pb")],
                      fs := {"pa", "pb", "pc"} }) ∧
    ("pc" : String) ∈ ({"pa", "pb", "pc"} : Finset String) := by
  exact ⟨rfl, by decide⟩

/-- C4 amended: a deletion failure is not recovered per file: with delete mode
on, the pass raises — returning an error and aborting the processing of the
remaining duplicates — exactly when the removal of some detected duplicate's
path fails. -/
theorem C4_failure_iff_error (l : List Item) (failS fs : Finset String) :
    (∃ e, check_for_duplicates true failS none l fs = .error e) ↔
      ∃ p ∈ dupAdj none (pySorted l), p.2.path ∈ failS := by
  constructor
  · rintro ⟨e, he⟩
    by_contra hno
    push_neg at hno
    have hch := scanLoop_true_ok failS (pySorted l) none ⟨0, 0, [], fs⟩ hno
    rw [show check_for_duplicates true failS none l fs =
      scanLoop true failS (pySorted l) none ⟨0, 0, [], fs⟩ from rfl, hch] at he
    exact Except.noConfusion he
  · intro hex
    exact scanLoop_true_error failS (pySorted l) none ⟨0, 0, [], fs⟩ hex

/-- C10: an explicitly supplied empty files list is falsy in
`files_list or self._items`, so detection runs over the previously cached
items exactly as if no list had been passed; in particular, with a cached
duplicate pair it produces that cache's report, not the empty report. -/
theorem C10_empty_list_falls_back_to_cache :
    (∀ (delete : Bool) (failS : Finset String) (items : List Item) (fs : Finset String),
      check_for_duplicates delete failS (some []) items fs =
        check_for_duplicates delete failS none items fs) ∧
    check_for_duplicates false ∅ (some []) [itemA, itemB] ∅ =
      .ok { count := 1, wasted := 11, pairs := [("pa", "pb")], fs := ∅ } := by
  exact ⟨fun _ _ _ _ => rfl, rfl⟩

/-! ### Claim theorems for walker, fingerprinter and hasher -/

/-- C6: a directory whose listing raises access denial is skipped (it
contributes nothing) and traversal continues — walking an entry list
containing it equals walking the list with it removed, so files in sibling
directories are still discovered — whereas a listing error other than access
denial propagates and aborts the walk. -/
theorem C6_walker_error_handling :
    (∀ (filt : Option (String → Bool)) (p : String) (sub : List Entry),
      processDir filt p .permissionDenied sub = .ok []) ∧
    (∀ (filt : Option (String → Bool)) (p : String) (es₁ : List Entry)
      (n : String) (sub es₂ : List Entry),
      processEntries filt p (es₁ ++ .dir n .permissionDenied sub :: es₂) =
        processEntries filt p (es₁ ++ es₂)) ∧
    (∀ (filt : Option (String → Bool)) (p : String) (sub : List Entry),
      processDir filt p .otherError sub = .error ()) ∧
    (∀ (filt : Option (String → Bool)) (p : String) (es₁ : List Entry),
      (∃ acc, processEntries filt p es₁ = .ok acc) →
      ∀ (n : String) (sub es₂ : List Entry),
        processEntries filt p (es₁ ++ .dir n .otherError sub :: es₂) = .error ()) :=
  ⟨fun _ _ _ => rfl, processEntries_skip_denied, fun _ _ _ => rfl,
    processEntries_abort_other⟩

/-- C6 witness: a concrete walk — a regular file, then a directory whose
listing fails with a non-permission error, then another file — aborts. -/
theorem C6_walker_error_handling_witness :
    processEntries none "r"
      ([Entry.file "x"] ++ Entry.dir "d" .otherError [] :: [Entry.file "y"]) =
      .error () :=
  C6_walker_error_handling.2.2.2 none "r" [Entry.file "x"]
    ⟨[("r/x", "x")], by rw [processEntries_step_file, processEntries_step_nil]; rfl⟩
    "d" [] [Entry.file "y"]

/-- C7: assuming hashing and stat succeed (the worker environment is total),
the fingerprinting stage returns exactly one record per input path — no path
is dropped, no extra record appears — and each record's path field equals its
input path. -/
theorem C7_one_record_per_path (env : FileEnv) (found_files : List String) :
    (get_files_list env found_files).1.map Item.path = found_files ∧
    (get_files_list env found_files).1.length = found_files.length := by
  have h1 : (get_files_list env found_files).1.map Item.path = found_files := by
    rw [get_files_list, collectLoop_eq]
    show (found_files.map (do_work env)).map Item.path = found_files
    rw [List.map_map]
    have hcomp : Item.path ∘ do_work env = fun w => w := funext fun _ => rfl
    rw [hcomp, List.map_id']
  refine ⟨h1, ?_⟩
  conv_rhs => rw [← h1]
  exact (List.length_map _ _).symm

/-- C8 counterexample: with two files, the first progress invocation reports
`(0, 2)` — `enumerate` counts from zero — whereas the claim requires the
first invocation to receive `(1, 2)`. -/
theorem C8_progress_first_call_cex :
    (get_files_list exEnv ["pa", "pb"]).2 = [(0, 2), (1, 2)] ∧
    ((0 : Nat), (2 : Nat)) ≠ ((1 : Nat), (2 : Nat)) := by
  exact ⟨rfl, by decide⟩

/-- C8 amended: the progress callback is invoked once after each completed
item, the k-th invocation (k = 1..n) receiving `(k - 1, n)` — the zero-based
index of the completed item — together with the total count `n`. -/
theorem C8_progress_zero_based (env : FileEnv) (found_files : List String) :
    (get_files_list env found_files).2 =
      (List.range found_files.length).map (fun k => (k, found_files.length)) := by
  rw [get_files_list, collectLoop_eq, List.range_eq_range']

/-- C9: the digest depends only on the full byte sequence, not on the
chunking: the 4096-byte streaming digest equals the digest of the bytes
streamed under any other chunking, and equals the digest of the whole content
at once; hence any two files with identical content receive identical
digests. -/
theorem C9_digest_chunk_independent (env : FileEnv) (path : String)
    (blocks : List (List Nat)) (hb : blocks.flatten = env.content path) :
    calculate_md5 env path = env.digest (streamBytes blocks) ∧
    calculate_md5 env path = env.digest (env.content path) ∧
    ∀ q : String, env.content q = env.content path →
      calculate_md5 env q = calculate_md5 env path := by
  have hmain : ∀ c : List Nat, streamBytes (readBlocks c) = c := fun c => by
    rw [streamBytes_eq_flatten, readBlocks_flatten]
  refine ⟨?_, ?_, ?_⟩
  · rw [calculate_md5, hmain, streamBytes_eq_flatten, hb]
  · rw [calculate_md5, hmain]
  · intro q hq
    rw [calculate_md5, calculate_md5, hq]

/-- C9 witness: the content `[1,2,3,4,5]` chunked into `[1,2]` and
`[3,4,5]`. -/
theorem C9_digest_chunk_independent_witness :
    calculate_md5 exEnv2 "p" = exEnv2.digest (streamBytes [[1, 2], [3, 4, 5]]) ∧
    calculate_md5 exEnv2 "p" = exEnv2.digest (exEnv2.content "p") ∧
    ∀ q : String, exEnv2.content q = exEnv2.content "p" →
      calculate_md5 exEnv2 q = calculate_md5 exEnv2 "p" :=
  C9_digest_chunk_independent exEnv2 "p" [[1, 2], [3, 4, 5]] rfl

end Duplicates
